import Mathlib

set_option maxHeartbeats 1600000
set_option maxRecDepth 8000

/-!
Shallow embedding of the ThreadFate day-planner core (time codec, colour
derivation, layout engine) from `src/src/App.jsx` and `src/app.jsx`, together
with theorems settling the specification claims about it.

JS strings are modelled as `List Char`, JS integral numbers as `Int`, pixel
coordinates as `ℚ`.  JS `%` on integers is truncated remainder (`Int.tmod`),
`Math.floor` of a real quotient is `Int.fdiv` (equal to `Int.tdiv` on
nonnegative values), bitwise operators convert through `ToInt32`/`ToUint32`,
and the one multiplication whose product can exceed 53 bits (`hashColor`)
is rounded like float64.  `Number(...)` is modelled exactly on trimmed,
optionally signed decimal digit strings (float64-exact below `2^53`) and
sends the remaining, here unreachable, numeric syntaxes (fractions,
exponents, radix prefixes) to `NaN`.
-/

namespace ThreadFate

/-- A JS string argument that may also be `undefined` (modelled as `none`). -/
abbrev JStr := Option (List Char)

/-- The character for a decimal digit value, as in JS `String(n)`. -/
def digitChar (n : Nat) : Char := Char.ofNat (48 + n)

/-- Fuel-driven decimal rendering of a natural number (JS `String(n)`, n ≥ 0).
The fuel only needs to exceed the number of digits; `natToChars` passes `n+1`. -/
def natToCharsAux : Nat → Nat → List Char
  | 0, _ => []
  | fuel + 1, n =>
    if n < 10 then [digitChar n]
    else natToCharsAux fuel (n / 10) ++ [digitChar (n % 10)]

/-- JS `String(n)` for a natural number. -/
def natToChars (n : Nat) : List Char := natToCharsAux (n + 1) n

/-- JS `String(n)` for an integer. -/
def intToChars (n : Int) : List Char :=
  if n < 0 then '-' :: natToChars n.natAbs else natToChars n.toNat

/-- `pad2` from both source files: `String(n).padStart(2, "0")`. -/
def pad2 (n : Int) : List Char :=
  List.replicate (2 - (intToChars n).length) '0' ++ intToChars n

/-- Decimal value of a list of digit characters. -/
def digitsToNat (cs : List Char) : Nat :=
  cs.foldl (fun acc c => acc * 10 + (c.toNat - 48)) 0

/-- JS whitespace: the space, tab, newline, carriage-return, vertical-tab,
form-feed, no-break-space and BOM characters stripped by both
`String.prototype.trim` and the implicit trim inside `Number(...)`. -/
def isJsWs (c : Char) : Bool :=
  c = ' ' || c = '\t' || c = '\n' || c = '\r'
    || c = '\u000B' || c = '\u000C' || c = '\u00A0' || c = '\uFEFF'

/-- Strip JS whitespace from both ends of a string. -/
def trimWs (cs : List Char) : List Char :=
  ((cs.dropWhile isJsWs).reverse.dropWhile isJsWs).reverse

/-- JS `Number(s)` on the grammar this repository's data can reach: after
trimming whitespace, the empty string evaluates to `0` and an optionally
signed decimal digit string to its exact integer value (float64 represents
these exactly below `2^53`, far beyond any minute value handled here).
Fraction, exponent and radix-prefixed syntaxes are outside the modelled
grammar and are mapped to `NaN` (`none`) like any other non-numeric text. -/
def jsNum (cs : List Char) : Option Int :=
  if trimWs cs = [] then some 0
  else if (trimWs cs).all Char.isDigit then some ((digitsToNat (trimWs cs) : Nat) : Int)
  else
    match trimWs cs with
    | '-' :: ds =>
      if ds = [] then none
      else if ds.all Char.isDigit then some (-((digitsToNat ds : Nat) : Int)) else none
    | '+' :: ds =>
      if ds = [] then none
      else if ds.all Char.isDigit then some ((digitsToNat ds : Nat) : Int) else none
    | _ => none

/-- JS `s.split(":")`. -/
def splitOnColon : List Char → List (List Char)
  | [] => [[]]
  | c :: rest =>
    match splitOnColon rest with
    | [] => [[]]
    | g :: gs => if c = ':' then [] :: g :: gs else (c :: g) :: gs

/-- `clamp` from both source files: `Math.max(lo, Math.min(hi, v))`. -/
def clamp {α : Type} [Min α] [Max α] (v lo hi : α) : α := max lo (min hi v)

/-- Round a nonnegative integer to step `2^s`, ties to even: one rounding
step of float64 arithmetic. -/
def f64roundAt (p s : Nat) : Nat :=
  (if p % 2 ^ s > 2 ^ (s - 1) then p / 2 ^ s + 1
   else if p % 2 ^ s < 2 ^ (s - 1) then p / 2 ^ s
   else if p / 2 ^ s % 2 = 0 then p / 2 ^ s else p / 2 ^ s + 1) * 2 ^ s

/-- Round a nonnegative integer below `2^57` to the nearest
float64-representable value (53-bit significand, ties to even): the rounding
a JS multiplication applies to an exact integer product of that size. -/
def f64round (p : Nat) : Nat :=
  if p < 2 ^ 53 then p
  else if p < 2 ^ 54 then f64roundAt p 1
  else if p < 2 ^ 55 then f64roundAt p 2
  else if p < 2 ^ 56 then f64roundAt p 3
  else f64roundAt p 4

/-- JS `ToInt32`: reinterpret a value below `2^32` as a signed 32-bit
integer, as the operands of JS bitwise operators are converted. -/
def asInt32 (x : Nat) : Int :=
  if x < 2 ^ 31 then (x : Int) else (x : Int) - 2 ^ 32

namespace App

/-- `toMinutes` from `src/src/App.jsx` (lines 3-9): guards against undefined or
empty input, splits on the colon, maps `Number` over the parts, and returns 0
unless there are at least two parts and the first two are numbers; otherwise
the hour is reduced by JS `%` (truncated remainder, so negative hours yield
negative results) modulo 24 and the minute clamped into `[0, 59]`.
(`Math.floor` is the identity on the integral values `jsNum` produces.) -/
def toMinutes : JStr → Int
  | none => 0
  | some cs =>
    if cs = [] then 0
    else
      match ((splitOnColon cs).map jsNum)[0]?, ((splitOnColon cs).map jsNum)[1]? with
      | some (some h), some (some m) => Int.tmod h 24 * 60 + clamp m 0 59
      | _, _ => 0

/-- The double-modulo normalisation `safe` inside `fromMinutes` of
`src/src/App.jsx` (line 14): `(mins % (24*60) + 24*60) % (24*60)` with JS `%`,
i.e. truncated remainder. -/
def safe (mins : Int) : Int := (Int.tmod mins (24 * 60) + 24 * 60).tmod (24 * 60)

/-- `fromMinutes` from `src/src/App.jsx` (lines 13-18). -/
def fromMinutes (mins : Int) : List Char :=
  pad2 ((safe mins).tdiv 60) ++ ':' :: pad2 ((safe mins).tmod 60)

end App

/-- The fixed colour palettes shared by both source files. -/
def palettes : List (List (List Char)) :=
  [[['#','4','8','5','7','F','F'],
    ['#','0','0','B','F','A','6'],
    ['#','F','F','6','B','6','B'],
    ['#','F','F','D','1','6','6'],
    ['#','7','F','5','A','F','0'],
    ['#','2','C','B','6','7','D']],
   [['#','0','E','A','5','E','9'],
    ['#','F','5','9','E','0','B'],
    ['#','1','0','B','9','8','1'],
    ['#','E','C','4','8','9','9'],
    ['#','8','B','5','C','F','6'],
    ['#','F','4','3','F','5','E']],
   [['#','F','F','6','B','3','5'],
    ['#','F','7','C','5','9','F'],
    ['#','E','F','E','F','D','0'],
    ['#','0','0','4','E','8','9'],
    ['#','1','A','6','5','9','E'],
    ['#','1','6','D','B','9','3']],
   [['#','3','A','8','6','F','F'],
    ['#','8','3','3','8','E','C'],
    ['#','F','F','0','0','6','E'],
    ['#','F','B','5','6','0','7'],
    ['#','F','F','B','E','0','B'],
    ['#','2','E','C','4','B','6']]]

namespace App

/-- JS `String(s || "")` in `hashColor` of `src/src/App.jsx`: an undefined
label collapses to the empty string. -/
def strOf : JStr → List Char
  | none => []
  | some cs => cs

/-- The hash loop of `hashColor` in `src/src/App.jsx` (lines 31-32): an
FNV-1a style 32-bit running hash over the label's UTF-16 code units (all
characters used in this repository sit in the basic plane, so `Char.toNat` is
`charCodeAt`).  Following JS number semantics exactly: `h ^ c` converts both
operands with `ToInt32` and yields a signed 32-bit value, the multiplication
by 16777619 happens in float64 (the exact product, below `2^56`, is rounded
to 53 significant bits, ties to even), and `>>> 0` is `ToUint32`, i.e. the
nonnegative remainder mod `2^32`.  `2166136261 >>> 0` is the identity on
that literal. -/
def fnvHash (cs : List Char) : Nat :=
  cs.foldl
    (fun h c =>
      ((if asInt32 (h ^^^ c.toNat) * 16777619 < 0
          then -((f64round (asInt32 (h ^^^ c.toNat) * 16777619).natAbs : Nat) : Int)
          else ((f64round (asInt32 (h ^^^ c.toNat) * 16777619).natAbs : Nat) : Int))
        % (2 ^ 32 : Int)).toNat)
    2166136261

/-- `hashColor` from `src/src/App.jsx` (lines 29-35): hash the label (an
undefined label collapses to the empty string first), pick a palette by
`hash mod 4`, then a colour inside it by a shifted second derivation. -/
def hashColor (s : JStr) : List Char :=
  let h := fnvHash (strOf s)
  let pal := palettes.getD (h % palettes.length) []
  pal.getD (((h >>> 7) % pal.length + pal.length) % pal.length) []

/-- One character of the `[0-9a-fA-F]` regex class. -/
def isHexDigit (c : Char) : Bool :=
  (decide ('0' ≤ c) && decide (c ≤ '9'))
    || (decide ('a' ≤ c) && decide (c ≤ 'f'))
    || (decide ('A' ≤ c) && decide (c ≤ 'F'))

/-- `isValidHex` from `src/src/App.jsx` (lines 364-367): non-strings are
rejected, then the trimmed string must match
`/^#([0-9a-fA-F]{3}|[0-9a-fA-F]{6})$/` — a mandatory `#` followed by exactly
3 or 6 hex digits. -/
def isValidHex : JStr → Bool
  | none => false
  | some cs =>
    match trimWs cs with
    | '#' :: rest => (rest.length == 3 || rest.length == 6) && rest.all isHexDigit
    | _ => false

end App

namespace AppRoot

/-- `toMinutes` from `src/app.jsx` (lines 17-20): no guards; a missing part is
`undefined` and a non-numeric part is `NaN`, and either makes `h * 60 + m`
evaluate to `NaN` (modelled as `none`). -/
def toMinutes (cs : List Char) : Option Int :=
  match (((splitOnColon cs).map jsNum)[0]?).join,
        (((splitOnColon cs).map jsNum)[1]?).join with
  | some h, some m => some (h * 60 + m)
  | _, _ => none

/-- `fromMinutes` from `src/app.jsx` (lines 24-28): `Math.floor(mins / 60)` is
the floor of the real quotient, i.e. `Int.fdiv`; JS `%` is truncated
remainder, so both `% 24` and `% 60` can be negative for negative input. -/
def fromMinutes (mins : Int) : List Char :=
  pad2 ((mins.fdiv 60).tmod 24) ++ ':' :: pad2 (mins.tmod 60)

end AppRoot

/-- A task record (`src/src/App.jsx` lines 42-46): title, times and colour are
JS strings (possibly undefined in stored data); the opaque id is a `Nat`. -/
structure Task where
  id : Nat
  title : JStr
  start : JStr
  «end» : JStr
  color : JStr
  deriving DecidableEq

/-- Insertion step of a stable insertion sort by key `kf`: the new element
goes before the first element of key `≥` its own, so existing equal-key
elements keep their relative order.  Extensionally this is the (stable, per
ES2019) JS `Array.prototype.sort` with comparator `(a, b) => kf a - kf b`. -/
def insertK {α : Type} (kf : α → Int) (a : α) : List α → List α
  | [] => [a]
  | b :: bs => if kf a ≤ kf b then a :: b :: bs else b :: insertK kf a bs

/-- Stable sort by key `kf`. -/
def sortK {α : Type} (kf : α → Int) : List α → List α
  | [] => []
  | a :: as => insertK kf a (sortK kf as)

/-- Index-annotation of a list, modelling the `idx` argument that
`Array.prototype.forEach` passes alongside each element. -/
def idxFrom {α : Type} : Nat → List α → List (Nat × α)
  | _, [] => []
  | n, a :: as => (n, a) :: idxFrom (n + 1) as

namespace App

/-- The sort key used at `src/src/App.jsx` line 109. -/
def startKey (t : Task) : Int := toMinutes t.start

/-- `sorted` from `src/src/App.jsx` (line 109): `[...tasks].sort((a, b) =>
toMinutes(a.start) - toMinutes(b.start))`. -/
def sorted (tasks : List Task) : List Task := sortK startKey tasks

/-- `minDay` from `src/src/App.jsx` (line 104). -/
def minDay (gridStart : JStr) : Int := clamp (toMinutes gridStart) 0 (24 * 60 - 1)

/-- `maxDay` from `src/src/App.jsx` (line 105). -/
def maxDay (gridEnd : JStr) : Int := clamp (toMinutes gridEnd) 1 (24 * 60)

/-- `rawSpan` from `src/src/App.jsx` (line 106). -/
def rawSpan (gridStart gridEnd : JStr) : Int :=
  if maxDay gridEnd > minDay gridStart then maxDay gridEnd - minDay gridStart else 60

/-- `daySpan` from `src/src/App.jsx` (line 107). -/
def daySpan (gridStart gridEnd : JStr) : Int := max 60 (rawSpan gridStart gridEnd)

/-- The affine minute-to-x map `xOf` from `src/src/App.jsx` (line 152),
parametrised by the enclosing `minDay`, `daySpan` and width values. -/
def xOf (minD span : Int) (W : Int) (mins : Int) : ℚ :=
  48 + (((mins : ℚ) - (minD : ℚ)) * ((W : ℚ) - 64)) / (span : ℚ)

/-- `rowHeight` from `src/src/App.jsx` (line 166). -/
def rowHeight : Int := 24

/-- `gaps` from `src/src/App.jsx` (line 167). -/
def gaps : Int := 10

/-- `usableHeight` from `src/src/App.jsx` (line 168). -/
def usableHeight (H : Int) : Int := max 120 (H - 160)

/-- `maxRows` from `src/src/App.jsx` (line 169). -/
def maxRows (H : Int) : Int := max 1 ((usableHeight H).tdiv (rowHeight + gaps))

end App

/-- One painted task band: the data the `sorted.forEach` body of
`src/src/App.jsx` (lines 171-209) derives for a task it does not skip.
`idx` is the task's position in the sorted list, `color` the `safeColor`
actually painted. -/
structure Band where
  idx : Nat
  row : Int
  x1 : ℚ
  x2 : ℚ
  color : JStr
  task : Task
  deriving DecidableEq

namespace App

/-- The band list produced by the `sorted.forEach` loop of `src/src/App.jsx`
(lines 171-209): clamp both task times into the day window, skip the task
when the clamped end is not after the clamped start, otherwise emit a band
with row `idx % maxRows`, clamped x-extent, and the `safeColor` of line 181. -/
def layoutBands (gridStart gridEnd : JStr) (W H : Int) (tasks : List Task) :
    List Band :=
  (idxFrom 0 (sorted tasks)).filterMap fun p =>
    let minD := minDay gridStart
    let span := daySpan gridStart gridEnd
    let s := clamp (toMinutes p.2.start) minD (minD + span)
    let e := clamp (toMinutes p.2.«end») minD (minD + span)
    if e ≤ s then none
    else some
      { idx := p.1
        row := (p.1 : Int).tmod (maxRows H)
        x1 := clamp (xOf minD span W s) 48 ((W : ℚ) - 16)
        x2 := clamp (xOf minD span W e) 48 ((W : ℚ) - 16)
        color := if isValidHex p.2.color then p.2.color else some (hashColor p.2.title)
        task := p.2 }

end App

/-- A well-formed two-digit `HH:MM` string: digits only, hour below 24,
minute below 60. -/
def wellFormedHHMM (cs : List Char) : Bool :=
  match cs with
  | [a, b, c, d, e] =>
    a.isDigit && b.isDigit && decide (c = ':') && d.isDigit && e.isDigit
      && decide (digitsToNat [a, b] < 24) && decide (digitsToNat [d, e] < 60)
  | _ => false

/-- Amended C8 acceptance condition, written from the spec's words with the
`#` made mandatory (the only change the code forces): after trimming, a `#`
followed by exactly 3 or 6 hexadecimal digits. -/
def hexSpecAmended (cs : List Char) : Bool :=
  match trimWs cs with
  | '#' :: rest => (rest.length == 3 || rest.length == 6) && rest.all App.isHexDigit
  | _ => false

/-- Example day-window start `"06:00"`. -/
def g0600 : JStr := some ['0','6',':','0','0']

/-- Example day-window end `"22:00"`. -/
def g2200 : JStr := some ['2','2',':','0','0']

/-- Example task 09:00-11:00 with no stored colour. -/
def tEx : Task :=
  { id := 1, title := some ['D','W'], start := some ['0','9',':','0','0'],
    «end» := some ['1','1',':','0','0'], color := none }

/-- Example task whose end 09:00 precedes its start 10:00. -/
def tBad : Task :=
  { id := 2, title := some ['X'], start := some ['1','0',':','0','0'],
    «end» := some ['0','9',':','0','0'], color := none }

/-- The single band the layout produces for `tEx` in the 06:00-22:00 window on
a 640x420 surface. -/
def bandEx : Band :=
  { idx := 0, row := 0, x1 := 156, x2 := 228,
    color := some (App.hashColor (some ['D','W'])), task := tEx }

theorem splitOnColon_cons (c : Char) (rest : List Char) :
    splitOnColon (c :: rest)
      = match splitOnColon rest with
        | [] => [[]]
        | g :: gs => if c = ':' then [] :: g :: gs else (c :: g) :: gs := rfl

theorem splitOnColon_ne_nil (cs : List Char) : splitOnColon cs ≠ [] := by
  cases cs with
  | nil => simp [splitOnColon]
  | cons c rest =>
    rw [splitOnColon_cons]
    cases splitOnColon rest with
    | nil => simp
    | cons g gs => by_cases hc : c = ':' <;> simp [hc]

theorem splitOnColon_no_colon {cs : List Char} (h : ∀ c ∈ cs, c ≠ ':') :
    splitOnColon cs = [cs] := by
  induction cs with
  | nil => rfl
  | cons c rest ih =>
    have hrest : splitOnColon rest = [rest] := ih fun x hx => h x (List.mem_cons_of_mem _ hx)
    rw [splitOnColon_cons, hrest]
    simp only
    rw [if_neg (h c (List.mem_cons_self c rest))]

theorem splitOnColon_append {hs ms : List Char} (h : ∀ c ∈ hs, c ≠ ':') :
    splitOnColon (hs ++ ':' :: ms) = hs :: splitOnColon ms := by
  induction hs with
  | nil =>
    rw [List.nil_append, splitOnColon_cons]
    cases hsp : splitOnColon ms with
    | nil => exact absurd hsp (splitOnColon_ne_nil ms)
    | cons g gs => simp
  | cons c rest ih =>
    have hr : splitOnColon (rest ++ ':' :: ms) = rest :: splitOnColon ms :=
      ih fun x hx => h x (List.mem_cons_of_mem _ hx)
    rw [List.cons_append, splitOnColon_cons, hr]
    simp only
    rw [if_neg (h c (List.mem_cons_self c rest))]

theorem digit_not_ws {c : Char} (h : c.isDigit = true) : isJsWs c = false := by
  by_contra hw
  rw [Bool.not_eq_false] at hw
  simp only [isJsWs, Bool.or_eq_true, decide_eq_true_eq] at hw
  rcases hw with (((((((h1 | h1) | h1) | h1) | h1) | h1) | h1) | h1) <;> subst h1 <;>
    exact absurd h (by decide)

theorem dropWhile_ws_eq_self {cs : List Char} (h : ∀ c ∈ cs, isJsWs c = false) :
    cs.dropWhile isJsWs = cs := by
  cases cs with
  | nil => rfl
  | cons c t =>
    rw [List.dropWhile_cons, if_neg (by simp [h c (List.mem_cons_self c t)])]

theorem trimWs_all_digits {cs : List Char} (h : cs.all Char.isDigit = true) :
    trimWs cs = cs := by
  have hall := List.all_eq_true.mp h
  have h1 : cs.dropWhile isJsWs = cs :=
    dropWhile_ws_eq_self fun c hc => digit_not_ws (hall c hc)
  have h2 : cs.reverse.dropWhile isJsWs = cs.reverse :=
    dropWhile_ws_eq_self fun c hc => digit_not_ws (hall c (List.mem_reverse.mp hc))
  rw [trimWs, h1, h2, List.reverse_reverse]

theorem jsNum_digits {cs : List Char} (h1 : cs ≠ []) (h2 : cs.all Char.isDigit = true) :
    jsNum cs = some ((digitsToNat cs : Nat) : Int) := by
  rw [jsNum, trimWs_all_digits h2, if_neg h1, if_pos h2]

theorem digit_ne_colon {c : Char} (h : c.isDigit = true) : c ≠ ':' := by
  intro hc
  subst hc
  exact absurd h (by decide)

theorem toMinutes_eval {hs ms : List Char} (h1 : hs ≠ []) (h2 : hs.all Char.isDigit = true)
    (h3 : ms ≠ []) (h4 : ms.all Char.isDigit = true) :
    App.toMinutes (some (hs ++ ':' :: ms))
      = (((digitsToNat hs % 24) * 60 + min (digitsToNat ms) 59 : Nat) : Int) := by
  have hhc : ∀ c ∈ hs, c ≠ ':' :=
    fun c hc => digit_ne_colon (List.all_eq_true.mp h2 c hc)
  have hmc : ∀ c ∈ ms, c ≠ ':' :=
    fun c hc => digit_ne_colon (List.all_eq_true.mp h4 c hc)
  have hne : hs ++ ':' :: ms ≠ [] := by simp
  simp only [App.toMinutes, if_neg hne, splitOnColon_append hhc, splitOnColon_no_colon hmc,
    List.map_cons, jsNum_digits h1 h2, jsNum_digits h3 h4, List.getElem?_cons_zero,
    List.getElem?_cons_succ]
  rw [Int.tmod_eq_emod (Int.natCast_nonneg _) (by decide)]
  simp only [clamp]
  push_cast
  omega

theorem safe_eq_emod (m : Int) : App.safe m = m % 1440 := by
  cases m with
  | ofNat n =>
    have h1 : Int.tmod (Int.ofNat n) (24 * 60) = Int.ofNat n % 1440 :=
      Int.tmod_eq_emod (by exact Int.ofNat_nonneg n) (by decide)
    have he : 0 ≤ Int.ofNat n % 1440 := Int.emod_nonneg _ (by decide)
    have h2 : Int.tmod (Int.ofNat n % 1440 + 24 * 60) (24 * 60)
        = (Int.ofNat n % 1440 + 24 * 60) % 1440 :=
      Int.tmod_eq_emod (by omega) (by decide)
    rw [App.safe, h1]
    rw [show ((24 : Int) * 60) = 1440 by decide] at h2 ⊢
    rw [h2]
    omega
  | negSucc n =>
    have h1 : Int.tmod (Int.negSucc n) (24 * 60) = -(((n + 1 : Nat) % 1440 : Nat) : Int) := rfl
    have hk : ((n + 1 : Nat) % 1440 : Nat) < 1440 := Nat.mod_lt _ (by decide)
    have hkc : (((n + 1 : Nat) % 1440 : Nat) : Int) = ((n + 1 : Nat) : Int) % 1440 :=
      Int.ofNat_emod _ _
    have h2 : Int.tmod (-(((n + 1 : Nat) % 1440 : Nat) : Int) + 24 * 60) (24 * 60)
        = (-(((n + 1 : Nat) % 1440 : Nat) : Int) + 24 * 60) % 1440 :=
      Int.tmod_eq_emod (by omega) (by decide)
    rw [App.safe, h1]
    rw [show ((24 : Int) * 60) = 1440 by decide] at h2 ⊢
    rw [h2]
    rw [Int.negSucc_eq]
    omega

theorem pad2_digits : ∀ k : Fin 100, pad2 ((k.val : Nat) : Int) ≠ []
    ∧ (pad2 ((k.val : Nat) : Int)).all Char.isDigit = true
    ∧ digitsToNat (pad2 ((k.val : Nat) : Int)) = k.val := by decide

theorem pad2_digits_of_lt {k : Nat} (hk : k < 100) :
    pad2 ((k : Nat) : Int) ≠ []
      ∧ (pad2 ((k : Nat) : Int)).all Char.isDigit = true
      ∧ digitsToNat (pad2 ((k : Nat) : Int)) = k := pad2_digits ⟨k, hk⟩

theorem fromMinutes_eq_pads {n : Int} (h0 : 0 ≤ n) (h1 : n < 1440) :
    App.fromMinutes n = pad2 (n / 60) ++ ':' :: pad2 (n % 60) := by
  have hs : App.safe n = n := by rw [safe_eq_emod]; omega
  rw [App.fromMinutes, hs, Int.tdiv_eq_ediv h0 (by decide), Int.tmod_eq_emod h0 (by decide)]

theorem toMinutes_fromMinutes {n : Int} (h0 : 0 ≤ n) (h1 : n < 1440) :
    App.toMinutes (some (App.fromMinutes n)) = n := by
  have hhN : (((n / 60).toNat : Nat) : Int) = n / 60 := by omega
  have hmN : (((n % 60).toNat : Nat) : Int) = n % 60 := by omega
  obtain ⟨hne1, hd1, hv1⟩ := pad2_digits_of_lt (k := (n / 60).toNat) (by omega)
  obtain ⟨hne2, hd2, hv2⟩ := pad2_digits_of_lt (k := (n % 60).toNat) (by omega)
  rw [fromMinutes_eq_pads h0 h1, ← hhN, ← hmN,
    toMinutes_eval hne1 hd1 hne2 hd2, hv1, hv2]
  omega

theorem toMinutes2_eval {hs ms : List Char} (h1 : hs ≠ []) (h2 : hs.all Char.isDigit = true)
    (h3 : ms ≠ []) (h4 : ms.all Char.isDigit = true) :
    AppRoot.toMinutes (hs ++ ':' :: ms)
      = some ((digitsToNat hs * 60 + digitsToNat ms : Nat) : Int) := by
  have hhc : ∀ c ∈ hs, c ≠ ':' :=
    fun c hc => digit_ne_colon (List.all_eq_true.mp h2 c hc)
  have hmc : ∀ c ∈ ms, c ≠ ':' :=
    fun c hc => digit_ne_colon (List.all_eq_true.mp h4 c hc)
  simp only [AppRoot.toMinutes, splitOnColon_append hhc, splitOnColon_no_colon hmc,
    List.map_cons, jsNum_digits h1 h2, jsNum_digits h3 h4, List.getElem?_cons_zero,
    List.getElem?_cons_succ, Option.join]
  norm_cast

theorem fromMinutes2_agree {n : Int} (h0 : 0 ≤ n) (h1 : n < 1440) :
    AppRoot.fromMinutes n = App.fromMinutes n := by
  have hf : n.fdiv 60 = n / 60 := Int.fdiv_eq_ediv n (by decide)
  have ht : (n / 60).tmod 24 = n / 60 := Int.tmod_eq_of_lt (by omega) (by omega)
  have hm : n.tmod 60 = n % 60 := Int.tmod_eq_emod h0 (by decide)
  rw [AppRoot.fromMinutes, hf, ht, hm, fromMinutes_eq_pads h0 h1]

theorem wellFormedHHMM_spec {cs : List Char} (h : wellFormedHHMM cs = true) :
    ∃ hs ms, cs = hs ++ ':' :: ms ∧ hs ≠ [] ∧ hs.all Char.isDigit = true
      ∧ ms ≠ [] ∧ ms.all Char.isDigit = true
      ∧ digitsToNat hs < 24 ∧ digitsToNat ms < 60 := by
  rcases cs with _ | ⟨a, _ | ⟨b, _ | ⟨c, _ | ⟨d, _ | ⟨e, _ | ⟨f, t⟩⟩⟩⟩⟩⟩ <;>
    simp only [wellFormedHHMM, Bool.and_eq_true, decide_eq_true_eq] at h
  case cons.cons.cons.cons.cons.nil =>
    obtain ⟨⟨⟨⟨⟨⟨ha, hb⟩, hc⟩, hd⟩, he⟩, h24⟩, h60⟩ := h
    subst hc
    exact ⟨[a, b], [d, e], rfl, by simp, by simp [ha, hb], by simp, by simp [hd, he], h24, h60⟩
  all_goals exact absurd h (by simp)

/-- Claim C1: round trip of the time codec: for every hour `h < 24` and minute
`m < 60`, `toMinutes (fromMinutes (h*60+m)) = h*60+m`; consequently
`fromMinutes ∘ toMinutes` is idempotent on well-formed `HH:MM` strings. -/
theorem time_codec_round_trip :
    (∀ h : Fin 24, ∀ m : Fin 60,
        App.toMinutes (some (App.fromMinutes ((h.val * 60 + m.val : Nat) : Int)))
          = ((h.val * 60 + m.val : Nat) : Int))
  ∧ ∀ cs : List Char, wellFormedHHMM cs = true →
      App.fromMinutes (App.toMinutes (some (App.fromMinutes (App.toMinutes (some cs)))))
        = App.fromMinutes (App.toMinutes (some cs)) := by
  have round : ∀ h : Fin 24, ∀ m : Fin 60,
      App.toMinutes (some (App.fromMinutes ((h.val * 60 + m.val : Nat) : Int)))
        = ((h.val * 60 + m.val : Nat) : Int) := by
    intro h m
    have h24 := h.isLt
    have h60 := m.isLt
    exact toMinutes_fromMinutes (by omega) (by omega)
  refine ⟨round, fun cs hwf => ?_⟩
  obtain ⟨hs, ms, rfl, h1, h2, h3, h4, h24, h60⟩ := wellFormedHHMM_spec hwf
  have hv : App.toMinutes (some (hs ++ ':' :: ms))
      = ((digitsToNat hs * 60 + digitsToNat ms : Nat) : Int) := by
    rw [toMinutes_eval h1 h2 h3 h4]
    push_cast
    omega
  rw [hv, round ⟨digitsToNat hs, h24⟩ ⟨digitsToNat ms, h60⟩]

/-- Witness for C1 at the concrete well-formed string `"09:30"`. -/
theorem time_codec_round_trip_witness :
    wellFormedHHMM ['0','9',':','3','0'] = true ∧
      App.fromMinutes
          (App.toMinutes (some (App.fromMinutes (App.toMinutes (some ['0','9',':','3','0'])))))
        = App.fromMinutes (App.toMinutes (some ['0','9',':','3','0'])) :=
  ⟨by decide, time_codec_round_trip.2 ['0','9',':','3','0'] (by decide)⟩

/-- Claim C2: `toMinutes` fails soft: `undefined`, the empty string, `"abc"`
and `"9"` all parse to 0; whenever the source's guard fires — fewer than two
split parts, or `NaN` in either of the first two — the result is 0 rather
than an error; and on digit strings `"H…H:M…M"` (with values below `2^53`,
where float64 arithmetic is exact) the hour is reduced modulo 24 and the
minute clamped into `[0, 59]`. -/
theorem toMinutes_fails_soft :
    (App.toMinutes none = 0 ∧ App.toMinutes (some []) = 0
      ∧ App.toMinutes (some ['a','b','c']) = 0 ∧ App.toMinutes (some ['9']) = 0)
  ∧ (∀ cs : List Char,
      ((splitOnColon cs).map jsNum).length < 2
        ∨ (((splitOnColon cs).map jsNum)[0]?).join = none
        ∨ (((splitOnColon cs).map jsNum)[1]?).join = none →
      App.toMinutes (some cs) = 0)
  ∧ ∀ hs ms : List Char, hs ≠ [] → hs.all Char.isDigit = true →
      ms ≠ [] → ms.all Char.isDigit = true →
      digitsToNat hs < 2 ^ 53 → digitsToNat ms < 2 ^ 53 →
      App.toMinutes (some (hs ++ ':' :: ms))
        = (((digitsToNat hs % 24) * 60 + min (digitsToNat ms) 59 : Nat) : Int) := by
  refine ⟨⟨rfl, rfl, by decide, by decide⟩, fun cs hguard => ?_,
    fun hs ms h1 h2 h3 h4 _ _ => toMinutes_eval h1 h2 h3 h4⟩
  by_cases hnil : cs = []
  · subst hnil
    rfl
  · simp only [App.toMinutes, if_neg hnil]
    split
    · next h m heq0 heq1 =>
      exfalso
      rcases hguard with hlen | hj0 | hj1
      · rcases List.getElem?_eq_some.mp heq1 with ⟨hlt, _⟩
        omega
      · rw [heq0] at hj0
        simp at hj0
      · rw [heq1] at hj1
        simp at hj1
    · rfl

/-- Witness for C2: the guard law at `"abc"` (a single, non-numeric part) and
the digit-string law at `"09"` and `"30"`. -/
theorem toMinutes_fails_soft_witness :
    ((((splitOnColon ['a','b','c']).map jsNum)[1]?).join = none
        ∧ App.toMinutes (some ['a','b','c']) = 0)
  ∧ ((['0','9'] : List Char) ≠ [] ∧ digitsToNat ['0','9'] < 2 ^ 53
        ∧ App.toMinutes (some (['0','9'] ++ ':' :: ['3','0']))
            = (((digitsToNat ['0','9'] % 24) * 60 + min (digitsToNat ['3','0']) 59 : Nat) : Int)) :=
  ⟨⟨by decide, toMinutes_fails_soft.2.1 ['a','b','c'] (Or.inr (Or.inr (by decide)))⟩,
    ⟨by decide, by decide,
      toMinutes_fails_soft.2.2 ['0','9'] ['3','0'] (by decide) (by decide) (by decide)
        (by decide) (by decide) (by decide)⟩⟩

/-- Fidelity check: a signed hour part parses like JS (`Number("-5") = -5`,
and `-5 % 24 = -5` under truncated remainder), so the source returns a
negative minute value here, not 0. -/
theorem toMinutes_signed_hour : App.toMinutes (some ['-','5',':','3','0']) = -270 := by decide

/-- Fidelity check: whitespace around a numeric part is trimmed like JS
(`Number(" 9") = 9`). -/
theorem toMinutes_padded_hour : App.toMinutes (some [' ','9',':','3','0']) = 570 := by decide

theorem pad2_len_hour : ∀ k : Fin 24, (pad2 ((k : Nat) : Int)).length = 2 := by decide

theorem pad2_len_minute : ∀ k : Fin 60, (pad2 ((k : Nat) : Int)).length = 2 := by decide

/-- Claim C3: `fromMinutes` normalises any integer input into `[0, 1440)` via
the double modulo (`safe`), renders the normalised value, every rendering is a
zero-padded five-character `HH:MM`, and in particular
`fromMinutes (-30) = "23:30"`. -/
theorem fromMinutes_normalizes :
    (∀ mins : Int, 0 ≤ App.safe mins ∧ App.safe mins < 1440
      ∧ App.fromMinutes mins = App.fromMinutes (App.safe mins)
      ∧ (App.fromMinutes mins).length = 5)
  ∧ App.fromMinutes (-30) = ['2','3',':','3','0'] := by
  refine ⟨fun mins => ?_, by decide⟩
  have h0 : 0 ≤ App.safe mins := by rw [safe_eq_emod]; exact Int.emod_nonneg _ (by decide)
  have h1 : App.safe mins < 1440 := by rw [safe_eq_emod]; exact Int.emod_lt_of_pos _ (by decide)
  have hidem : App.safe (App.safe mins) = App.safe mins := by
    rw [safe_eq_emod (App.safe mins), safe_eq_emod mins]
    omega
  have hd : (App.safe mins).tdiv 60 = App.safe mins / 60 :=
    Int.tdiv_eq_ediv h0 (by decide)
  have hm : (App.safe mins).tmod 60 = App.safe mins % 60 :=
    Int.tmod_eq_emod h0 (by decide)
  have hlenh : (pad2 ((App.safe mins).tdiv 60)).length = 2 := by
    rw [hd]
    have hfin := pad2_len_hour ⟨(App.safe mins / 60).toNat, by omega⟩
    rwa [show ((((App.safe mins / 60).toNat : Nat)) : Int) = App.safe mins / 60 by omega] at hfin
  have hlenm : (pad2 ((App.safe mins).tmod 60)).length = 2 := by
    rw [hm]
    have hfin := pad2_len_minute ⟨(App.safe mins % 60).toNat, by omega⟩
    rwa [show ((((App.safe mins % 60).toNat : Nat)) : Int) = App.safe mins % 60 by omega] at hfin
  refine ⟨h0, h1, ?_, ?_⟩
  · rw [App.fromMinutes, App.fromMinutes, hidem]
  · rw [App.fromMinutes, List.length_append, List.length_cons, hlenh, hlenm]

/-- Claim C4: the effective day span driving the affine minute-to-x map is at
least 60 minutes for every configured window (so the division by `daySpan` in
`xOf` never divides by zero), and the inverted window `"10:00"`-`"09:00"`
falls back to exactly 60. -/
theorem daySpan_min_sixty :
    (∀ gridStart gridEnd : JStr, 60 ≤ App.daySpan gridStart gridEnd)
  ∧ (∀ gridStart gridEnd : JStr, ((App.daySpan gridStart gridEnd : ℚ)) ≠ 0)
  ∧ App.daySpan (some ['1','0',':','0','0']) (some ['0','9',':','0','0']) = 60 := by
  refine ⟨fun gs ge => le_max_left 60 _, fun gs ge => ?_, by decide⟩
  have h : 60 ≤ App.daySpan gs ge := le_max_left 60 _
  exact Int.cast_ne_zero.mpr (by omega)

theorem mem_insertK {α : Type} {kf : α → Int} {a x : α} {l : List α} :
    x ∈ insertK kf a l ↔ x = a ∨ x ∈ l := by
  induction l with
  | nil => simp [insertK]
  | cons b bs ih =>
    simp only [insertK]
    split
    · simp [List.mem_cons]
    · simp only [List.mem_cons, ih]
      tauto

theorem insertK_perm {α : Type} (kf : α → Int) (a : α) (l : List α) :
    (insertK kf a l).Perm (a :: l) := by
  induction l with
  | nil => exact List.Perm.refl _
  | cons b bs ih =>
    simp only [insertK]
    split
    · exact List.Perm.refl _
    · exact (List.Perm.cons b ih).trans (List.Perm.swap a b bs)

theorem sortK_perm {α : Type} (kf : α → Int) (l : List α) : (sortK kf l).Perm l := by
  induction l with
  | nil => exact List.Perm.refl _
  | cons a as ih => exact (insertK_perm kf a _).trans (List.Perm.cons a ih)

theorem mem_sortK {α : Type} {kf : α → Int} {x : α} {l : List α} :
    x ∈ sortK kf l ↔ x ∈ l :=
  (sortK_perm kf l).mem_iff

theorem insertK_pairwise {α : Type} {kf : α → Int} {a : α} {l : List α}
    (h : l.Pairwise fun x y => kf x ≤ kf y) :
    (insertK kf a l).Pairwise fun x y => kf x ≤ kf y := by
  induction l with
  | nil => simp [insertK]
  | cons b bs ih =>
    rw [List.pairwise_cons] at h
    obtain ⟨hb, hbs⟩ := h
    simp only [insertK]
    split
    · next hab =>
      rw [List.pairwise_cons]
      refine ⟨fun y hy => ?_, List.pairwise_cons.mpr ⟨hb, hbs⟩⟩
      rcases List.mem_cons.mp hy with rfl | hy
      · exact hab
      · exact le_trans hab (hb y hy)
    · next hab =>
      rw [List.pairwise_cons]
      refine ⟨fun y hy => ?_, ih hbs⟩
      rcases mem_insertK.mp hy with rfl | hy
      · omega
      · exact hb y hy

theorem sortK_pairwise {α : Type} (kf : α → Int) (l : List α) :
    (sortK kf l).Pairwise fun x y => kf x ≤ kf y := by
  induction l with
  | nil => simp [sortK]
  | cons a as ih => exact insertK_pairwise ih

theorem insertK_stable {β : Type} {kf : Nat × β → Int} {a : Nat × β} {l : List (Nat × β)}
    (ha : ∀ p ∈ l, a.1 < p.1)
    (h : l.Pairwise fun p q => kf p = kf q → p.1 < q.1) :
    (insertK kf a l).Pairwise fun p q => kf p = kf q → p.1 < q.1 := by
  induction l with
  | nil => simp [insertK]
  | cons b bs ih =>
    rw [List.pairwise_cons] at h
    obtain ⟨hb, hbs⟩ := h
    have hab : a.1 < b.1 := ha b (List.mem_cons_self b bs)
    simp only [insertK]
    split
    · rw [List.pairwise_cons]
      refine ⟨fun q hq _ => ?_, List.pairwise_cons.mpr ⟨hb, hbs⟩⟩
      rcases List.mem_cons.mp hq with rfl | hq
      · exact hab
      · exact ha q (List.mem_cons_of_mem _ hq)
    · next hk =>
      rw [List.pairwise_cons]
      refine ⟨fun q hq => ?_, ih (fun p hp => ha p (List.mem_cons_of_mem _ hp)) hbs⟩
      rcases mem_insertK.mp hq with rfl | hq
      · intro heq
        omega
      · exact hb q hq

theorem sortK_stable {β : Type} {kf : Nat × β → Int} {l : List (Nat × β)}
    (h : l.Pairwise fun p q => p.1 < q.1) :
    (sortK kf l).Pairwise fun p q => kf p = kf q → p.1 < q.1 := by
  induction l with
  | nil => simp [sortK]
  | cons a as ih =>
    rw [List.pairwise_cons] at h
    obtain ⟨ha, has⟩ := h
    exact insertK_stable (fun p hp => ha p (mem_sortK.mp hp)) (ih has)

theorem map_insertK {α β : Type} (f : α → β) (kf : β → Int) (a : α) (l : List α) :
    (insertK (fun x => kf (f x)) a l).map f = insertK kf (f a) (l.map f) := by
  induction l with
  | nil => rfl
  | cons b bs ih =>
    simp only [insertK, List.map_cons]
    split
    · next h => simp [insertK, h]
    · next h => simp [insertK, h, ih]

theorem map_sortK {α β : Type} (f : α → β) (kf : β → Int) (l : List α) :
    (sortK (fun x => kf (f x)) l).map f = sortK kf (l.map f) := by
  induction l with
  | nil => rfl
  | cons a as ih => rw [sortK, List.map_cons, sortK, map_insertK, ih]

theorem idxFrom_fst_le {α : Type} {n : Nat} {l : List α} {p : Nat × α}
    (hp : p ∈ idxFrom n l) : n ≤ p.1 := by
  induction l generalizing n with
  | nil => simp [idxFrom] at hp
  | cons a as ih =>
    simp only [idxFrom, List.mem_cons] at hp
    rcases hp with rfl | hp
    · exact Nat.le_refl n
    · have := ih hp
      omega

theorem idxFrom_pairwise {α : Type} (n : Nat) (l : List α) :
    (idxFrom n l).Pairwise fun p q => p.1 < q.1 := by
  induction l generalizing n with
  | nil => simp [idxFrom]
  | cons a as ih =>
    simp only [idxFrom]
    rw [List.pairwise_cons]
    exact ⟨fun q hq => by have := idxFrom_fst_le hq; omega, ih (n + 1)⟩

theorem idxFrom_map_snd {α : Type} (n : Nat) (l : List α) :
    (idxFrom n l).map Prod.snd = l := by
  induction l generalizing n with
  | nil => rfl
  | cons a as ih => rw [idxFrom, List.map_cons, ih]

theorem idxFrom_snd_mem {α : Type} {n : Nat} {l : List α} {p : Nat × α}
    (hp : p ∈ idxFrom n l) : p.2 ∈ l := by
  have h := List.mem_map_of_mem Prod.snd hp
  rwa [idxFrom_map_snd] at h

theorem idxFrom_get {α : Type} {n : Nat} {l : List α} {p : Nat × α}
    (hp : p ∈ idxFrom n l) : l[p.1 - n]? = some p.2 := by
  induction l generalizing n with
  | nil => simp [idxFrom] at hp
  | cons a as ih =>
    simp only [idxFrom, List.mem_cons] at hp
    rcases hp with rfl | hp
    · simp
    · have h1 : n + 1 ≤ p.1 := idxFrom_fst_le hp
      have h2 := ih hp
      rw [show p.1 - n = (p.1 - (n + 1)) + 1 by omega, List.getElem?_cons_succ]
      exact h2

theorem layoutBands_mem {gridStart gridEnd : JStr} {W H : Int} {tasks : List Task}
    {b : Band} (hb : b ∈ App.layoutBands gridStart gridEnd W H tasks) :
    ∃ p ∈ idxFrom 0 (App.sorted tasks),
      ¬ clamp (App.toMinutes p.2.«end») (App.minDay gridStart)
            (App.minDay gridStart + App.daySpan gridStart gridEnd)
          ≤ clamp (App.toMinutes p.2.start) (App.minDay gridStart)
            (App.minDay gridStart + App.daySpan gridStart gridEnd)
      ∧ b.idx = p.1
      ∧ b.row = (p.1 : Int).tmod (App.maxRows H)
      ∧ b.color = (if App.isValidHex p.2.color then p.2.color
          else some (App.hashColor p.2.title))
      ∧ b.task = p.2 := by
  rw [App.layoutBands, List.mem_filterMap] at hb
  obtain ⟨p, hp, hpb⟩ := hb
  refine ⟨p, hp, ?_⟩
  dsimp only at hpb
  split at hpb
  · exact absurd hpb (by simp)
  · next hcond =>
    rw [Option.some_inj] at hpb
    subst hpb
    exact ⟨hcond, rfl, rfl, rfl, rfl⟩

/-- Claim C5: skip rule: a task whose end, clamped into the day window, is
not after its clamped start contributes no band at all to the layout; in
particular the inverted task 10:00-09:00 in the 06:00-22:00 window renders
nothing. -/
theorem skip_rule :
    (∀ gridStart gridEnd : JStr, ∀ W H : Int, ∀ tasks : List Task, ∀ t : Task,
      t ∈ tasks →
      clamp (App.toMinutes t.«end») (App.minDay gridStart)
          (App.minDay gridStart + App.daySpan gridStart gridEnd)
        ≤ clamp (App.toMinutes t.start) (App.minDay gridStart)
          (App.minDay gridStart + App.daySpan gridStart gridEnd) →
      t ∉ (App.layoutBands gridStart gridEnd W H tasks).map Band.task)
  ∧ App.layoutBands g0600 g2200 640 420 [tBad] = [] := by
  refine ⟨fun gs ge W H tasks t ht hskip hmem => ?_, by with_unfolding_all rfl⟩
  rw [List.mem_map] at hmem
  obtain ⟨b, hb, hbt⟩ := hmem
  obtain ⟨p, _, hcond, _, _, _, htask⟩ := layoutBands_mem hb
  rw [htask] at hbt
  rw [hbt] at hcond
  exact hcond hskip

/-- Witness for C5: the inverted task `tBad` inside the 06:00-22:00 window. -/
theorem skip_rule_witness :
    tBad ∈ [tBad] ∧
      tBad ∉ (App.layoutBands g0600 g2200 640 420 [tBad]).map Band.task :=
  ⟨List.mem_singleton.mpr rfl,
    skip_rule.1 g0600 g2200 640 420 [tBad] tBad (List.mem_singleton.mpr rfl) (by decide)⟩

/-- Claim C6: row packing: tasks are sorted by start time ascending by a
stable sort (equal start times keep their original relative order), and a
task laid out at sorted index `i` gets display row `i mod maxRows`, where
`maxRows = ⌊usableHeight / (rowHeight + gaps)⌋` is at least 1 — a modulo
round-robin, not interval packing. -/
theorem row_packing_modulo :
    (∀ tasks : List Task, (App.sorted tasks).Perm tasks
      ∧ (App.sorted tasks).Pairwise fun a b => App.startKey a ≤ App.startKey b)
  ∧ (∀ tasks : List Task,
      (sortK (fun p => App.startKey p.2) (idxFrom 0 tasks)).map Prod.snd = App.sorted tasks
      ∧ (sortK (fun p => App.startKey p.2) (idxFrom 0 tasks)).Pairwise
          fun p q => App.startKey p.2 = App.startKey q.2 → p.1 < q.1)
  ∧ (∀ H : Int, App.maxRows H = (App.usableHeight H).tdiv (App.rowHeight + App.gaps)
      ∧ 1 ≤ App.maxRows H)
  ∧ (∀ gridStart gridEnd : JStr, ∀ W H : Int, ∀ tasks : List Task, ∀ b : Band,
      b ∈ App.layoutBands gridStart gridEnd W H tasks →
      b.row = (b.idx : Int).tmod (App.maxRows H)
        ∧ (App.sorted tasks)[b.idx]? = some b.task) := by
  refine ⟨fun tasks => ⟨sortK_perm _ _, sortK_pairwise _ _⟩,
    fun tasks => ⟨?_, sortK_stable (idxFrom_pairwise 0 tasks)⟩,
    fun H => ?_, fun gs ge W H tasks b hb => ?_⟩
  · rw [map_sortK Prod.snd App.startKey (idxFrom 0 tasks), idxFrom_map_snd]
    rfl
  · have hu : (120 : Int) ≤ App.usableHeight H := le_max_left 120 _
    have ht : (App.usableHeight H).tdiv 34 = App.usableHeight H / 34 :=
      Int.tdiv_eq_ediv (by omega) (by decide)
    have h3 : (3 : Int) ≤ (App.usableHeight H).tdiv (App.rowHeight + App.gaps) := by
      rw [show App.rowHeight + App.gaps = (34 : Int) from rfl, ht]
      have hdiv := Int.ediv_le_ediv (by decide : (0 : Int) < 34) hu
      omega
    rw [App.maxRows]
    omega
  · obtain ⟨p, hp, _, hidx, hrow, _, htask⟩ := layoutBands_mem hb
    refine ⟨by rw [hrow, hidx], ?_⟩
    have hget := idxFrom_get hp
    rw [Nat.sub_zero] at hget
    rw [hidx, htask]
    exact hget

/-- Witness for C6 at a concrete one-task layout on a 640x420 surface. -/
theorem row_packing_modulo_witness :
    bandEx ∈ App.layoutBands g0600 g2200 640 420 [tEx]
      ∧ bandEx.row = (bandEx.idx : Int).tmod (App.maxRows 420)
      ∧ (App.sorted [tEx])[bandEx.idx]? = some bandEx.task :=
  have hmem : bandEx ∈ App.layoutBands g0600 g2200 640 420 [tEx] := by
    rw [show App.layoutBands g0600 g2200 640 420 [tEx] = [bandEx] by with_unfolding_all rfl]
    exact List.mem_singleton.mpr rfl
  ⟨hmem, row_packing_modulo.2.2.2 g0600 g2200 640 420 [tEx] bandEx hmem⟩

/-- Claim C9: colour substitution: every laid-out band paints the stored
colour exactly when it is a valid hex string and `hashColor(title)`
otherwise, and carries its task record unchanged — an element of the input
collection, which the pure layout never mutates. -/
theorem safeColor_substitution :
    ∀ gridStart gridEnd : JStr, ∀ W H : Int, ∀ tasks : List Task, ∀ b : Band,
      b ∈ App.layoutBands gridStart gridEnd W H tasks →
      b.task ∈ tasks
        ∧ (App.isValidHex b.task.color = true → b.color = b.task.color)
        ∧ (App.isValidHex b.task.color = false → b.color = some (App.hashColor b.task.title)) := by
  intro gs ge W H tasks b hb
  obtain ⟨p, hp, _, _, _, hcolor, htask⟩ := layoutBands_mem hb
  have hmem : b.task ∈ tasks := by
    rw [htask]
    exact mem_sortK.mp (idxFrom_snd_mem hp)
  refine ⟨hmem, fun hvalid => ?_, fun hinvalid => ?_⟩
  · rw [htask] at hvalid
    rw [hcolor, if_pos hvalid, htask]
  · rw [htask] at hinvalid
    rw [hcolor, if_neg (by simp [hinvalid]), htask]

/-- Witness for C9: the band of `tEx` (whose stored colour is absent) paints
the derived `hashColor` of its title. -/
theorem safeColor_substitution_witness :
    bandEx ∈ App.layoutBands g0600 g2200 640 420 [tEx]
      ∧ bandEx.task ∈ [tEx]
      ∧ bandEx.color = some (App.hashColor bandEx.task.title) :=
  have hmem : bandEx ∈ App.layoutBands g0600 g2200 640 420 [tEx] := by
    rw [show App.layoutBands g0600 g2200 640 420 [tEx] = [bandEx] by with_unfolding_all rfl]
    exact List.mem_singleton.mpr rfl
  ⟨hmem, (safeColor_substitution g0600 g2200 640 420 [tEx] bandEx hmem).1,
    (safeColor_substitution g0600 g2200 640 420 [tEx] bandEx hmem).2.2 (by decide)⟩

theorem getD_mem {α : Type} {l : List α} {i : Nat} {d : α} (h : i < l.length) :
    l.getD i d ∈ l := by
  rw [List.getD_eq_getElem?_getD, List.getElem?_eq_getElem h]
  exact List.getElem_mem h

/-- Claim C7: `hashColor` is a pure function of the label text (identical
text always yields the identical colour), an undefined label is treated as
the empty string, and every label receives a colour out of one of the fixed
palettes rather than an error. -/
theorem hashColor_deterministic :
    (∀ s1 s2 : JStr, App.strOf s1 = App.strOf s2 → App.hashColor s1 = App.hashColor s2)
  ∧ App.hashColor none = App.hashColor (some [])
  ∧ ∀ s : JStr, ∃ pal, pal ∈ palettes ∧ App.hashColor s ∈ pal := by
  refine ⟨fun s1 s2 h => ?_, rfl, fun s => ?_⟩
  · rw [App.hashColor, App.hashColor, h]
  · have h4 : App.fnvHash (App.strOf s) % palettes.length < palettes.length :=
      Nat.mod_lt _ (by decide)
    have hp6 : ∀ i : Fin 4, (palettes.getD i.val []).length = 6 := by decide
    have hpal6 : (palettes.getD (App.fnvHash (App.strOf s) % palettes.length) []).length = 6 :=
      hp6 ⟨App.fnvHash (App.strOf s) % palettes.length, h4⟩
    refine ⟨palettes.getD (App.fnvHash (App.strOf s) % palettes.length) [], getD_mem h4, ?_⟩
    rw [App.hashColor]
    exact getD_mem (by rw [hpal6]; exact Nat.mod_lt _ (by decide))

/-- Witness for C7: the undefined label hashes exactly like the empty
string. -/
theorem hashColor_deterministic_witness :
    App.strOf none = App.strOf (some []) ∧ App.hashColor none = App.hashColor (some []) :=
  ⟨rfl, hashColor_deterministic.1 none (some []) rfl⟩

/-- Counterexample to C8 as stated: the regex of `isValidHex` makes the
leading `#` mandatory, so the bare three-digit string `"fff"` is rejected,
contrary to the optional-`#` reading. -/
theorem isValidHex_bare_fff_rejected :
    App.isValidHex (some ['f','f','f']) = false := by decide

/-- Claim C8 (amended): `isValidHex` returns true exactly for strings that,
after trimming, consist of a mandatory `#` followed by 3 or 6 hexadecimal
digits: it accepts `"#fff"` and `"#ffffff"` and rejects the bare `"fff"` and
`"ffffff"`, as well as `"red"`, `"#ff"`, the empty string, and non-string
values. -/
theorem isValidHex_requires_hash :
    (∀ cs : List Char, App.isValidHex (some cs) = hexSpecAmended cs)
  ∧ App.isValidHex (some ['#','f','f','f']) = true
  ∧ App.isValidHex (some ['#','f','f','f','f','f','f']) = true
  ∧ App.isValidHex (some ['f','f','f']) = false
  ∧ App.isValidHex (some ['f','f','f','f','f','f']) = false
  ∧ App.isValidHex (some ['r','e','d']) = false
  ∧ App.isValidHex (some ['#','f','f']) = false
  ∧ App.isValidHex (some []) = false
  ∧ App.isValidHex none = false :=
  ⟨fun cs => rfl, by decide, by decide, by decide, by decide, by decide, by decide,
    by decide, rfl⟩

/-- Claim C10: the two codec implementations agree on well-formed input: on
every rendered `HH:MM` value below 1440 the root `toMinutes` returns exactly
the number the robust one does, and the two `fromMinutes` renderings coincide
on all of `[0, 1440)`; they genuinely diverge on malformed (`"abc"`) and
negative (`-30`) inputs. -/
theorem codecs_agree_on_wellformed :
    (∀ h : Fin 24, ∀ m : Fin 60,
        AppRoot.toMinutes (App.fromMinutes ((h.val * 60 + m.val : Nat) : Int))
          = some (App.toMinutes (some (App.fromMinutes ((h.val * 60 + m.val : Nat) : Int)))))
  ∧ (∀ h : Fin 24, ∀ m : Fin 60,
        AppRoot.fromMinutes ((h.val * 60 + m.val : Nat) : Int)
          = App.fromMinutes ((h.val * 60 + m.val : Nat) : Int))
  ∧ AppRoot.toMinutes ['a','b','c'] = none
  ∧ App.toMinutes (some ['a','b','c']) = 0
  ∧ AppRoot.fromMinutes (-30) ≠ App.fromMinutes (-30) := by
  have hbounds : ∀ h : Fin 24, ∀ m : Fin 60,
      (0 : Int) ≤ ((h.val * 60 + m.val : Nat) : Int)
        ∧ ((h.val * 60 + m.val : Nat) : Int) < 1440 := by
    intro h m
    have h24 := h.isLt
    have h60 := m.isLt
    omega
  refine ⟨fun h m => ?_, fun h m => fromMinutes2_agree (hbounds h m).1 (hbounds h m).2,
    by decide, by decide, by decide⟩
  obtain ⟨h0, h1⟩ := hbounds h m
  have hhN : ((((((h.val * 60 + m.val : Nat) : Int)) / 60).toNat : Nat) : Int)
      = (((h.val * 60 + m.val : Nat) : Int)) / 60 := by omega
  have hmN : ((((((h.val * 60 + m.val : Nat) : Int)) % 60).toNat : Nat) : Int)
      = (((h.val * 60 + m.val : Nat) : Int)) % 60 := by omega
  obtain ⟨hne1, hd1, hv1⟩ :=
    pad2_digits_of_lt (k := ((((h.val * 60 + m.val : Nat) : Int)) / 60).toNat) (by omega)
  obtain ⟨hne2, hd2, hv2⟩ :=
    pad2_digits_of_lt (k := ((((h.val * 60 + m.val : Nat) : Int)) % 60).toNat) (by omega)
  rw [fromMinutes_eq_pads h0 h1, ← hhN, ← hmN,
    toMinutes2_eval hne1 hd1 hne2 hd2, toMinutes_eval hne1 hd1 hne2 hd2, hv1, hv2]
  exact congrArg some (by omega)

end ThreadFate
